import Mathlib

/-!
Verification of the evaluation-and-ranking driver in
`nlxplain/evaluation/explanation_evaluation.py`.

The development shallowly embeds the driver:

* metric objects are structures carrying the attributes the driver reads
  (`SHORT_NAME`, `TYPE_METRIC`, `BEST_SORTING_ASCENDING`, and the
  `evaluate_explanation` method as an opaque function);
* the tokenizer is an opaque function `String → List ℕ` (`encode`,
  producing token ids with one special token at each end, which the code
  strips with `[1:-1]`);
* real-valued scores are rationals; a pandas cell is `Option ℚ`
  (`none` models NaN / a missing value);
* `scipy.stats.rankdata(_, method="dense")` is modelled by its documented
  semantics: the rank of an entry is the number of distinct values that are
  `≤` it;
* Python dictionaries keyed by strings are modelled as functions
  `String → Option _` (a key is present exactly when the value is `some`);
* Python's aliasing of mutable dataframes is modelled, where a claim needs
  it, by threading an explicit store (`List DataFrame`) in which each
  dataframe object occupies one slot.
-/

namespace Nlxplain

/-! ## Metric registry construction (`ExplanationEvalutator.__init__`, lines 80-89)

`InitMetric` is a metric object as seen by the constructor's explicit-list
branch: the attributes read there, plus the Boolean outcome of Python's
`isinstance(evaluation_metric, BaseEvaluator)` test.  A concrete metric class
subclasses `BaseEvaluator`, so instances of concrete metrics have
`isBaseEvaluatorInstance = true`; an object that is unrelated to the abstract
base has `isBaseEvaluatorInstance = false`. -/
structure InitMetric where
  SHORT_NAME : String
  TYPE_METRIC : String
  isBaseEvaluatorInstance : Bool
deriving DecidableEq

/-- Lines 80-89 of `ExplanationEvalutator.__init__` (the
`evaluation_metrics is not None` branch): iterate over the supplied metrics,
raising `ValueError(f"{m} not supported")` when
`isinstance(m, BaseEvaluator)` holds, and otherwise appending the metric to
the faithfulness / plausibility / other bucket according to `TYPE_METRIC`.
The accumulator arguments are the three buckets built so far. -/
def initMetricBuckets (f p o : List InitMetric) :
    List InitMetric → Except String (List InitMetric × List InitMetric × List InitMetric)
  | [] => Except.ok (f, p, o)
  | m :: rest =>
    if m.isBaseEvaluatorInstance then
      Except.error (m.SHORT_NAME ++ " not supported")
    else if m.TYPE_METRIC = "faithfulness" then
      initMetricBuckets (f ++ [m]) p o rest
    else if m.TYPE_METRIC = "plausibility" then
      initMetricBuckets f (p ++ [m]) o rest
    else
      initMetricBuckets f p (o ++ [m]) rest

/-- A concrete faithfulness metric instance: it is an instance of a concrete
subclass of `BaseEvaluator`, hence `isinstance(m, BaseEvaluator)` is true. -/
def aopcComprehensiveness : InitMetric :=
  { SHORT_NAME := "aopc_compr", TYPE_METRIC := "faithfulness",
    isBaseEvaluatorInstance := true }

/-- An object that does not implement the metric capability at all (not an
instance of `BaseEvaluator`); only the attributes the constructor reads are
modelled. -/
def bareNonMetric : InitMetric :=
  { SHORT_NAME := "bare", TYPE_METRIC := "other", isBaseEvaluatorInstance := false }

/-! ## The word-to-token rationale aligner (`get_true_rational_tokens`, lines 91-105) -/

/-- Embedding of `self.tokenizer.encode(t)[1:-1]`: the tokenizer output for one word with
Python's `[1:-1]` slice applied (drop the first and the last element; lists of
length at most two yield `[]`). -/
def encodeInner (encode : String → List ℕ) (t : String) : List ℕ :=
  ((encode t).drop 1).dropLast

/-- The number of sub-word tokens the tokenizer produces for one word (after
stripping the special tokens, as the aligner does). -/
def tokenCount (encode : String → List ℕ) (t : String) : ℕ :=
  (encodeInner encode t).length

/-- The aligner `get_true_rational_tokens` (lines 91-105): zip the words with the
word-level rationale flags and, for each pair, append the flag once per
element of `encode(word)[1:-1]`. -/
def get_true_rational_tokens (encode : String → List ℕ)
    (original_tokens : List String) (rationale_original_tokens : List ℤ) : List ℤ :=
  (original_tokens.zip rationale_original_tokens).flatMap
    (fun p => (encodeInner encode p.1).map (fun _ => p.2))

/-! ## Dense ranking (`_rank_explainers`, lines 246-277)

`scipy.stats.rankdata(xs, method="dense")` assigns to each entry the number
of distinct values of the column that are less than or equal to it: tied
entries share a rank and the ranks of the distinct values are the consecutive
integers `1, 2, …`. -/

/-- The dense rank of the value `v` within the column `xs`. -/
def rankVal (xs : List ℚ) (v : ℚ) : ℕ :=
  ((xs.dedup).filter (fun u => u ≤ v)).length

/-- Embedding of `scipy.stats.rankdata(xs, method="dense")`. -/
def rankdataDense (xs : List ℚ) : List ℕ :=
  xs.map (fun v => rankVal xs v)

/-- Python's `max(r)` over the array of ranks (Python raises on an empty
column; the `0` default is never reached for the nonempty columns the claims
quantify over). -/
def maxDenseRank (xs : List ℚ) : ℕ :=
  (rankdataDense xs).foldl max 0

/-- Lines 264-266: the rank column for a "higher is better" metric
(`BEST_SORTING_ASCENDING = False`):
`df_eval[f"{c}_r"] = min(len(df_eval[c]), max(r)) + 1 - r`. -/
def rank_higher (xs : List ℚ) : List ℕ :=
  (rankdataDense xs).map (fun ri => min xs.length (maxDenseRank xs) + 1 - ri)

/-- Lines 276-277: the rank column for a "lower is better" metric
(`BEST_SORTING_ASCENDING = True`) is the ascending dense rank itself. -/
def rank_lower (xs : List ℚ) : List ℕ :=
  rankdataDense xs

/-! ## Duplicate column-name disambiguation (lines 121-126)

`evaluate_explainers` renames duplicated column names with pandas'
`ParserBase._maybe_dedup_names` (`mangle_dupe_cols = True`, no multi-index):

    counts = defaultdict(int)
    for i, col in enumerate(names):
        cur_count = counts[col]
        while cur_count > 0:
            counts[col] = cur_count + 1
            col = f"{col}.{cur_count}"
            cur_count = counts[col]
        names[i] = col
        counts[col] = cur_count + 1

The inner `while` loop is embedded with explicit fuel, returning `none` when
the fuel runs out; `dedupGo_spec` proves that the fuel chosen in
`maybe_dedup_names` always suffices, so the embedding is total exactly as
the Python loop always terminates. -/

/-- The `while cur_count > 0` loop of `_maybe_dedup_names`. -/
def dedupLoop : ℕ → (String → ℕ) → String → Option (String × (String → ℕ))
  | 0, counts, col =>
    if counts col = 0 then some (col, counts) else none
  | fuel + 1, counts, col =>
    if counts col = 0 then some (col, counts)
    else
      dedupLoop fuel (Function.update counts col (counts col + 1))
        (col ++ "." ++ toString (counts col))

/-- The `for i, col in enumerate(names)` loop of `_maybe_dedup_names`:
run the while-loop for the current name, store the resulting `col` as the
output name, bump its count, continue. -/
def dedupGo (fuel : ℕ) : (String → ℕ) → List String → Option (List String)
  | _, [] => some []
  | counts, n :: rest =>
    match dedupLoop fuel counts n with
    | none => none
    | some (col, counts1) =>
      match dedupGo fuel (Function.update counts1 col (counts1 col + 1)) rest with
      | none => none
      | some out => some (col :: out)

/-- Embedding of `pandas.io.parsers.base_parser.ParserBase._maybe_dedup_names`, as called
on line 123, starting from all-zero counts. -/
def maybe_dedup_names (names : List String) : Option (List String) :=
  dedupGo names.length (fun _ => 0) names

/-- Lines 121-126: the rename runs only when some column name is duplicated
(`sum(explanations.columns.duplicated()) > 0`); otherwise the columns are
left untouched. -/
def dedupColumns (names : List String) : Option (List String) :=
  if names.Nodup then some names else maybe_dedup_names names

/-- Total version of `maybe_dedup_names`, used by the dataframe pipeline.
`maybe_dedup_names_total` proves the `getD` default branch is dead code. -/
def dedup_names_total (names : List String) : List String :=
  (maybe_dedup_names names).getD names

/-! ## The evaluation loop (`evaluate_explainers`, lines 117-177)

A metric's `evaluate_explanation` method is opaque to the driver, which only
reads `SHORT_NAME` and (in `_rank_explainers`) `BEST_SORTING_ASCENDING`.
`BEST_SORTING_ASCENDING` is `Option Bool` because `_rank_explainers` compares
the attribute against `False` and against `True` with `==`, and a metric may
define neither.  Faithfulness and "other" metrics are called with the target
class index; plausibility metrics are called with the ground-truth rationale,
whose type `ρ` is kept abstract because the driver passes it through
verbatim.  A pandas cell is `Option ℚ` (`none` is NaN). -/

/-- A faithfulness or "other" metric object, as read by
`evaluate_explainers` and `_rank_explainers`. -/
structure FMetric where
  SHORT_NAME : String
  BEST_SORTING_ASCENDING : Option Bool
  evaluate_explanation : String → List (Option ℚ) → ℤ → ℚ

/-- A plausibility metric object; `ρ` is the caller's rationale type. -/
structure PMetric (ρ : Type) where
  SHORT_NAME : String
  BEST_SORTING_ASCENDING : Option Bool
  evaluate_explanation : String → List (Option ℚ) → ρ → ℚ

/-- The nested dictionary `evaluation_scores`: metric short name ↦
(explainer name ↦ score).  A key is present exactly when the value is
`some`. -/
def ScoreTable : Type := String → Option (String → Option ℚ)

/-- Line 117: `evaluation_scores = {}`. -/
def emptyScores : ScoreTable := fun _ => none

/-- Embedding of `if name not in evaluation_scores: evaluation_scores[name] = \x7b\x7d` followed
by `evaluation_scores[name][row] = v` (lines 135-136 and analogous). -/
def addScore (tbl : ScoreTable) (name row : String) (v : ℚ) : ScoreTable :=
  Function.update tbl name
    (some (Function.update ((tbl name).getD (fun _ => none)) row (some v)))

/-- Reading `evaluation_scores[name][row]`, as an optional value. -/
def lookupScore (tbl : ScoreTable) (name row : String) : Option ℚ :=
  match tbl name with
  | none => none
  | some inner => inner row

/-- Lines 132-175, body of `for explainer_type in explanations.index`: run
the faithfulness metrics, then — when a rationale was supplied and at least
one plausibility metric is registered — the plausibility metrics (passing the
rationale verbatim), then the "other" measures, recording each score under
(short name, explainer name). -/
def evalRow {ρ : Type} (faith : List FMetric) (plaus : List (PMetric ρ))
    (other : List FMetric) (text : String) (target : ℤ) (rat : Option ρ)
    (tbl : ScoreTable) (rowName : String) (scores : List (Option ℚ)) : ScoreTable :=
  let t1 := faith.foldl
    (fun t m => addScore t m.SHORT_NAME rowName (m.evaluate_explanation text scores target))
    tbl
  let t2 := match rat with
    | none => t1
    | some r =>
      if 0 < plaus.length then
        plaus.foldl
          (fun t m => addScore t m.SHORT_NAME rowName (m.evaluate_explanation text scores r))
          t1
      else t1
  other.foldl
    (fun t m => addScore t m.SHORT_NAME rowName (m.evaluate_explanation text scores target))
    t2

/-- Lines 117-175: the score table after the whole explainer loop (rows are
`(explainer name, score vector)` pairs read from the caller's matrix). -/
def evaluation_scores {ρ : Type} (faith : List FMetric) (plaus : List (PMetric ρ))
    (other : List FMetric) (text : String) (target : ℤ) (rat : Option ρ)
    (rows : List (String × List (Option ℚ))) : ScoreTable :=
  rows.foldl (fun t r => evalRow faith plaus other text target rat t r.1 r.2) emptyScores

/-! ## Dataframes and the full pipeline -/

/-- A pandas dataframe: named columns and labelled rows of optional
rationals (`none` is NaN). -/
structure DataFrame where
  columns : List String
  rows : List (String × List (Option ℚ))
deriving DecidableEq, Inhabited

/-- Column order of `pd.DataFrame(evaluation_scores)` on line 177:
dictionary keys in insertion order.  Keys are created during the first
iteration of the explainer loop (so there are none when there are no
explainer rows): faithfulness names first, then — when a rationale was
supplied and the plausibility bucket is nonempty — plausibility names, then
"other" names, first occurrences only. -/
def score_table_keys {ρ : Type} (faith : List FMetric) (plaus : List (PMetric ρ))
    (other : List FMetric) (rat : Option ρ)
    (rows : List (String × List (Option ℚ))) : List String :=
  if rows.isEmpty then []
  else
    (faith.map (fun m => m.SHORT_NAME)
      ++ (if rat.isSome ∧ 0 < plaus.length then plaus.map (fun m => m.SHORT_NAME) else [])
      ++ other.map (fun m => m.SHORT_NAME)).dedup

/-- Line 177, `pd.concat([df_eval, pd.DataFrame(evaluation_scores)], axis=1)`:
append one column per score-table key, aligned by explainer row name; a
missing cell is NaN. -/
def concatScores (df : DataFrame) (tbl : ScoreTable) (keys : List String) : DataFrame :=
  { columns := df.columns ++ keys,
    rows := df.rows.map (fun r => (r.1, r.2 ++ keys.map (fun k => lookupScore tbl k r.1))) }

/-- numpy's value comparison as used by `rankdata`, on a pandas column:
NaN (`none`) sorts after every number. -/
def oleB : Option ℚ → Option ℚ → Bool
  | _, none => true
  | none, some _ => false
  | some a, some b => decide (a ≤ b)

/-- Embedding of `scipy.stats.rankdata(_, method="dense")` over a pandas column;
`rankdataDenseO_map_some` identifies the NaN-free case with
`rankdataDense`. -/
def rankdataDenseO (xs : List (Option ℚ)) : List ℕ :=
  xs.map (fun v => ((xs.dedup).filter (fun u => oleB u v)).length)

/-- Reading `df_eval[c]` as a value list (by column name; `[]` if absent). -/
def dfColValues (df : DataFrame) (c : String) : List (Option ℚ) :=
  match df.columns.indexOf? c with
  | none => []
  | some i => df.rows.map (fun r => r.2.getD i none)

/-- Assignment `df_eval[name] = vals`: overwrite the column in place if it exists,
else append it. -/
def dfSetCol (df : DataFrame) (c : String) (vals : List (Option ℚ)) : DataFrame :=
  match df.columns.indexOf? c with
  | some i =>
    { columns := df.columns,
      rows := (df.rows.zip vals).map (fun rv => (rv.1.1, rv.1.2.set i rv.2)) }
  | none =>
    { columns := df.columns ++ [c],
      rows := (df.rows.zip vals).map (fun rv => (rv.1.1, rv.1.2 ++ [rv.2])) }

/-- Line 266: `min(len(df_eval[c]), max(r)) + 1 - r`, as stored cell
values. -/
def higherRankVals (col : List (Option ℚ)) : List (Option ℚ) :=
  ((rankdataDenseO col).map
    (fun ri => min col.length ((rankdataDenseO col).foldl max 0) + 1 - ri)).map
    (fun k => some ((k : ℚ)))

/-- Line 277: the ascending dense ranks, as stored cell values. -/
def lowerRankVals (col : List (Option ℚ)) : List (Option ℚ) :=
  (rankdataDenseO col).map (fun k => some ((k : ℚ)))

/-- Lines 256-266: the "higher is better" loop of `_rank_explainers`;
returns the mutated frame and `show_higher_cols`. -/
def rank_higher_pass (measures : List (String × Option Bool)) (df : DataFrame) :
    DataFrame × List String :=
  (((measures.filter (fun m => decide (m.2 = some false ∧ m.1 ∈ df.columns))).map
      Prod.fst).foldl
    (fun d c => dfSetCol d (c ++ "_r") (higherRankVals (dfColValues d c))) df,
   ((measures.filter (fun m => decide (m.2 = some false ∧ m.1 ∈ df.columns))).map
      Prod.fst))

/-- Lines 268-277: the "lower is better" loop; `show_lower_cols` is computed
from the frame as it stands after the higher loop already ran. -/
def rank_lower_pass (measures : List (String × Option Bool)) (df : DataFrame) :
    DataFrame × List String :=
  (((measures.filter (fun m => decide (m.2 = some true ∧ m.1 ∈ df.columns))).map
      Prod.fst).foldl
    (fun d c => dfSetCol d (c ++ "_r") (lowerRankVals (dfColValues d c))) df,
   ((measures.filter (fun m => decide (m.2 = some true ∧ m.1 ∈ df.columns))).map
      Prod.fst))

/-- Lines 281-286: `show_cols`, iterating all measures in registration order
(faithfulness, plausibility, other) and emitting `[name, name_r]` for those
whose name lies in `show_higher_cols + show_lower_cols`. -/
def rank_show_cols (measures : List (String × Option Bool))
    (higher lower : List String) : List String :=
  (measures.map Prod.fst).flatMap
    (fun n => if n ∈ higher ++ lower then [n, n ++ "_r"] else [])

/-- Lines 288-292: `output_cols = list(score_cols) + show_cols + [c for c in
cols if c not in list(score_cols) + show_cols]`, with `cols` the column list
captured at entry of `_rank_explainers`. -/
def rank_output_cols (measures : List (String × Option Bool))
    (cols score_cols higher lower : List String) : List String :=
  score_cols ++ rank_show_cols measures higher lower
    ++ cols.filter
      (fun c => decide (c ∉ score_cols ++ rank_show_cols measures higher lower))

/-- Selection `df_eval[output_cols]`: a fresh frame holding the named columns in the
requested order. -/
def dfSelect (df : DataFrame) (cs : List String) : DataFrame :=
  { columns := cs,
    rows := df.rows.map (fun r =>
      (r.1, cs.map (fun c =>
        match df.columns.indexOf? c with
        | none => none
        | some i => r.2.getD i none))) }

/-- The ranker `_rank_explainers` (lines 246-293) as a pure frame transformation;
`score_cols` is the `text_tokens` argument passed on line 182. -/
def rank_explainers_df (measures : List (String × Option Bool)) (df : DataFrame)
    (score_cols : List String) : DataFrame :=
  dfSelect (rank_lower_pass measures (rank_higher_pass measures df).1).1
    (rank_output_cols measures df.columns score_cols
      (rank_higher_pass measures df).2
      (rank_lower_pass measures (rank_higher_pass measures df).1).2)

/-- The driver `evaluate_explainers` (lines 107-187), with Python's object aliasing made
explicit: dataframe objects live in a store and variables hold slot indices.
`copy.deepcopy(explanations)` (line 119) allocates a fresh slot; the
duplicate-column rename (line 123) and the rank-column writes inside
`_rank_explainers` mutate the slot their variable points to; `pd.concat`
(line 177) and `df_eval[output_cols]` (line 293) allocate fresh objects.
Returns the final store and the slot of the returned frame `df_eval`.  The
explainer loop reads `explanations` (lines 129-130), not the copy.  The
presentation step (`_style_result`) is cosmetic and outside the modelled
core.  The `tokenizer` argument is the evaluator's `self.tokenizer`
attribute: `evaluate_explainers` never consumes it (only
`get_true_rational_tokens` does), so the result is independent of it. -/
def evaluate_explainers {ρ : Type} (tokenizer : String → List ℕ)
    (faith : List FMetric) (plaus : List (PMetric ρ)) (other : List FMetric)
    (text : String) (target : ℤ) (true_rationale : Option ρ)
    (rank_explainer : Bool) (store : List DataFrame) (explId : ℕ) :
    List DataFrame × ℕ :=
  let explanations := store.getD explId default
  let evalId := store.length
  let store1 := store ++ [explanations]
  let store2 :=
    if explanations.columns.Nodup then store1
    else store1.set evalId
      { store1.getD evalId default with
          columns := dedup_names_total explanations.columns }
  let text_tokens := (store2.getD evalId default).columns
  let tbl := evaluation_scores faith plaus other text target true_rationale
    explanations.rows
  let concatId := store2.length
  let store3 := store2 ++
    [concatScores (store2.getD evalId default) tbl
      (score_table_keys faith plaus other true_rationale explanations.rows)]
  if rank_explainer then
    let measures := faith.map (fun m => (m.SHORT_NAME, m.BEST_SORTING_ASCENDING))
      ++ plaus.map (fun m => (m.SHORT_NAME, m.BEST_SORTING_ASCENDING))
      ++ other.map (fun m => (m.SHORT_NAME, m.BEST_SORTING_ASCENDING))
    let dfc := store3.getD concatId default
    let store4 := store3.set concatId
      (rank_lower_pass measures (rank_higher_pass measures dfc).1).1
    (store4 ++ [rank_explainers_df measures dfc text_tokens], store4.length)
  else (store3, concatId)

/-! ## Helper lemmas -/

lemma dedup_toFinset {α : Type _} [DecidableEq α] (l : List α) :
    l.dedup.toFinset = l.toFinset := by
  ext a; simp [List.mem_dedup]

lemma rankVal_eq_card (xs : List ℚ) (v : ℚ) :
    rankVal xs v = (xs.toFinset.filter (fun u => u ≤ v)).card := by
  rw [rankVal, ← List.toFinset_card_of_nodup ((List.nodup_dedup xs).filter _),
    List.toFinset_filter, dedup_toFinset]
  simp

lemma one_le_rankVal (xs : List ℚ) (v : ℚ) (hv : v ∈ xs) : 1 ≤ rankVal xs v := by
  rw [rankVal_eq_card]
  exact Finset.card_pos.mpr ⟨v, by simp [hv]⟩

lemma rankVal_le_dedup_length (xs : List ℚ) (v : ℚ) :
    rankVal xs v ≤ xs.dedup.length :=
  List.length_filter_le _ _

lemma dedup_length_le (xs : List ℚ) : xs.dedup.length ≤ xs.length :=
  (List.dedup_sublist xs).length_le

lemma rankVal_lt_rankVal (xs : List ℚ) {u v : ℚ} (hv : v ∈ xs) (huv : u < v) :
    rankVal xs u < rankVal xs v := by
  rw [rankVal_eq_card, rankVal_eq_card]
  apply Finset.card_lt_card
  have hsub : xs.toFinset.filter (fun w => w ≤ u) ⊆ xs.toFinset.filter (fun w => w ≤ v) := by
    intro a ha
    simp only [Finset.mem_filter] at ha ⊢
    exact ⟨ha.1, ha.2.trans huv.le⟩
  rw [Finset.ssubset_iff_of_subset hsub]
  exact ⟨v, by simp [hv], by simp [not_le.mpr huv]⟩

lemma rankVal_max (xs : List ℚ) (v : ℚ) (hmax : ∀ u ∈ xs, u ≤ v) :
    rankVal xs v = xs.dedup.length := by
  have h : (xs.dedup).filter (fun u => decide (u ≤ v)) = xs.dedup :=
    List.filter_eq_self.mpr (fun u hu => by simp [hmax u (List.mem_dedup.mp hu)])
  rw [rankVal, h]

lemma rankVal_min (xs : List ℚ) (v : ℚ) (hv : v ∈ xs) (hmin : ∀ u ∈ xs, v ≤ u) :
    rankVal xs v = 1 := by
  rw [rankVal_eq_card]
  have h : xs.toFinset.filter (fun u => u ≤ v) = {v} := by
    ext a
    simp only [Finset.mem_filter, List.mem_toFinset, Finset.mem_singleton]
    constructor
    · rintro ⟨ha, hav⟩
      exact le_antisymm hav (hmin a ha)
    · rintro rfl
      exact ⟨hv, le_rfl⟩
  rw [h, Finset.card_singleton]

lemma init_le_foldl_max (l : List ℕ) (b : ℕ) : b ≤ l.foldl max b := by
  induction l generalizing b with
  | nil => exact le_refl b
  | cons a l ih => exact (le_max_left b a).trans (ih (max b a))

lemma le_foldl_max (l : List ℕ) (b : ℕ) : ∀ x ∈ l, x ≤ l.foldl max b := by
  induction l generalizing b with
  | nil => intro x hx; cases hx
  | cons a l ih =>
    intro x hx
    rcases List.mem_cons.mp hx with rfl | hx
    · calc x ≤ max b x := le_max_right _ _
        _ ≤ l.foldl max (max b x) := init_le_foldl_max l _
    · exact ih _ x hx

lemma foldl_max_le (l : List ℕ) (b c : ℕ) (hb : b ≤ c) (h : ∀ x ∈ l, x ≤ c) :
    l.foldl max b ≤ c := by
  induction l generalizing b with
  | nil => exact hb
  | cons a l ih =>
    exact ih _ (max_le hb (h a (List.mem_cons_self a l)))
      (fun x hx => h x (List.mem_cons_of_mem a hx))

lemma maxDenseRank_eq (xs : List ℚ) (hne : xs ≠ []) :
    maxDenseRank xs = xs.dedup.length := by
  have hxne : xs.toFinset.Nonempty := by
    cases xs with
    | nil => exact absurd rfl hne
    | cons a l => exact ⟨a, by simp⟩
  have hmem : xs.toFinset.max' hxne ∈ xs :=
    List.mem_toFinset.mp (xs.toFinset.max'_mem hxne)
  have hmax : ∀ u ∈ xs, u ≤ xs.toFinset.max' hxne :=
    fun u hu => Finset.le_max' _ u (List.mem_toFinset.mpr hu)
  have hDmem : xs.dedup.length ∈ rankdataDense xs := by
    rw [← rankVal_max xs _ hmax]
    exact List.mem_map.mpr ⟨_, hmem, rfl⟩
  apply le_antisymm
  · apply foldl_max_le _ _ _ (Nat.zero_le _)
    intro x hx
    obtain ⟨v, _, rfl⟩ := List.mem_map.mp hx
    exact rankVal_le_dedup_length xs v
  · exact le_foldl_max _ _ _ hDmem

lemma zip_eq_zip_take_min {α β : Type _} :
    ∀ (l1 : List α) (l2 : List β),
      l1.zip l2
        = (l1.take (min l1.length l2.length)).zip (l2.take (min l1.length l2.length))
  | [], _ => by simp
  | _ :: _, [] => by simp
  | a :: l1, b :: l2 => by
    simp only [List.length_cons, Nat.succ_min_succ, List.take_succ_cons, List.zip_cons_cons]
    rw [← zip_eq_zip_take_min l1 l2]

lemma rankVal_injOn (xs : List ℚ) :
    Set.InjOn (rankVal xs) xs.toFinset := by
  intro u hu v hv huv
  by_contra hne
  rcases lt_or_gt_of_ne hne with h | h
  · exact absurd huv
      (ne_of_lt (rankVal_lt_rankVal xs (List.mem_toFinset.mp (Finset.mem_coe.mp hv)) h))
  · exact absurd huv.symm
      (ne_of_lt (rankVal_lt_rankVal xs (List.mem_toFinset.mp (Finset.mem_coe.mp hu)) h))

lemma toFinset_card_eq_dedup_length (xs : List ℚ) :
    xs.toFinset.card = xs.dedup.length := by
  rw [← dedup_toFinset, List.toFinset_card_of_nodup (List.nodup_dedup xs)]

lemma image_rankVal (xs : List ℚ) :
    xs.toFinset.image (rankVal xs) = Finset.Icc 1 xs.dedup.length := by
  apply Finset.eq_of_subset_of_card_le
  · intro k hk
    obtain ⟨v, hv, rfl⟩ := Finset.mem_image.mp hk
    have hvx := List.mem_toFinset.mp hv
    exact Finset.mem_Icc.mpr ⟨one_le_rankVal xs v hvx, rankVal_le_dedup_length xs v⟩
  · rw [Finset.card_image_of_injOn (rankVal_injOn xs), Nat.card_Icc,
      toFinset_card_eq_dedup_length]
    omega

lemma map_toFinset {α β : Type _} [DecidableEq α] [DecidableEq β]
    (l : List α) (f : α → β) : (l.map f).toFinset = l.toFinset.image f := by
  ext a; simp

lemma icc_reflect (D : ℕ) :
    (Finset.Icc 1 D).image (fun k => D + 1 - k) = Finset.Icc 1 D := by
  ext m
  simp only [Finset.mem_image, Finset.mem_Icc]
  constructor
  · rintro ⟨k, hk, rfl⟩
    omega
  · intro hm
    exact ⟨D + 1 - m, by omega, by omega⟩

/-! ## Claim theorems: constructor validation, aligner, ranking -/

/-- C1: the claim says construction succeeds for every concrete metric
implementation and fails with a configuration error exactly for the bare
abstract capability marker.  The code does the opposite: the condition on
line 82 reads `isinstance(evaluation_metric, BaseEvaluator)` instead of
`not isinstance(...)`, so a concrete metric instance (which subclasses
`BaseEvaluator`) is rejected with `ValueError`, while an object that does not
implement the capability at all is accepted into a bucket.  This theorem
evaluates the constructor on both inputs, exhibiting the inversion. -/
theorem c1_constructor_validation_inverted :
    initMetricBuckets [] [] [] [aopcComprehensiveness]
        = Except.error "aopc_compr not supported"
    ∧ initMetricBuckets [] [] [] [bareNonMetric]
        = Except.ok ([], [], [bareNonMetric]) :=
  ⟨rfl, rfl⟩

/-- C4: for an equal-length word list and word-level rationale, the aligner's
output is the concatenation, in word order, of each word's flag replicated
once per sub-word token of the word, and its length is the sum of the
per-word token counts.  (A word with zero tokens contributes
`List.replicate 0 _ = []`, without error.) -/
theorem c4_aligner_replication (encode : String → List ℕ)
    (words : List String) (rats : List ℤ) (h : words.length = rats.length) :
    get_true_rational_tokens encode words rats
      = (words.zip rats).flatMap (fun p => List.replicate (tokenCount encode p.1) p.2)
    ∧ (get_true_rational_tokens encode words rats).length
      = (words.map (fun w => tokenCount encode w)).sum := by
  have h1 : get_true_rational_tokens encode words rats
      = (words.zip rats).flatMap (fun p => List.replicate (tokenCount encode p.1) p.2) := by
    unfold get_true_rational_tokens tokenCount
    exact congrArg _ (funext fun p => List.map_const' _ _)
  refine ⟨h1, ?_⟩
  rw [h1, List.length_flatMap]
  have h2 : List.map Prod.fst (words.zip rats) = words :=
    List.map_fst_zip words rats (le_of_eq h)
  conv_rhs => rw [← h2]
  rw [List.map_map]
  have h3 : (List.length ∘ fun p : String × ℤ => List.replicate (tokenCount encode p.1) p.2)
      = (fun w => tokenCount encode w) ∘ Prod.fst := by
    funext p
    simp
  rw [h3]

/-- C10: when the word list and the rationale list have different lengths the
aligner raises no error; it processes exactly the first
`min (number of words) (number of flags)` pairs (Python's `zip` truncates),
so the surplus entries of the longer list contribute nothing. -/
theorem c10_aligner_truncation (encode : String → List ℕ)
    (words : List String) (rats : List ℤ) :
    get_true_rational_tokens encode words rats
      = get_true_rational_tokens encode
          (words.take (min words.length rats.length))
          (rats.take (min words.length rats.length)) := by
  unfold get_true_rational_tokens
  rw [← zip_eq_zip_take_min]

/-- C2: for every nonempty column, the "higher is better" rank column is
pointwise `min N maxRank + 1 − ascendingDenseRank` (with `N` the number of
rows and `maxRank` the largest ascending dense rank), a row carrying the
maximum score receives rank 1 there, the "lower is better" rank column is
the ascending dense rank itself, and a row carrying the minimum score
receives rank 1 there. -/
theorem c2_direction_aware_ranks (xs : List ℚ) (hne : xs ≠ []) :
    rank_higher xs
      = xs.map (fun v => min xs.length (maxDenseRank xs) + 1 - rankVal xs v)
    ∧ (∀ v ∈ xs, (∀ u ∈ xs, u ≤ v) →
        min xs.length (maxDenseRank xs) + 1 - rankVal xs v = 1)
    ∧ rank_lower xs = xs.map (fun v => rankVal xs v)
    ∧ (∀ v ∈ xs, (∀ u ∈ xs, v ≤ u) → rankVal xs v = 1) := by
  refine ⟨?_, ?_, rfl, ?_⟩
  · rw [rank_higher, rankdataDense, List.map_map]
    rfl
  · intro v _ hvmax
    rw [rankVal_max xs v hvmax, maxDenseRank_eq xs hne,
      min_eq_right (dedup_length_le xs)]
    omega
  · intro v hv hvmin
    exact rankVal_min xs v hv hvmin

/-- C2 witness at the column `[2, 1]`: `2` carries the maximum score and the
"higher is better" rank assigned to it is `1`. -/
theorem c2_witness :
    (2 : ℚ) ∈ [(2 : ℚ), 1]
    ∧ (∀ u ∈ [(2 : ℚ), 1], u ≤ (2 : ℚ))
    ∧ min ([(2 : ℚ), 1]).length (maxDenseRank [(2 : ℚ), 1]) + 1
        - rankVal [(2 : ℚ), 1] 2 = 1 :=
  ⟨by decide, by decide,
    (c2_direction_aware_ranks [(2 : ℚ), 1] (by decide)).2.1 2 (by decide) (by decide)⟩

/-- C3: for every nonempty column, both rank columns take values in `[1, N]`
(`N` the number of rows), rows with equal scores receive equal ranks in both
directions, and the set of assigned ranks is exactly `{1, …, D}` where `D`
is the number of distinct score values (gapless dense ranking, both
directions). -/
theorem c3_rank_bounds_ties_gapless (xs : List ℚ) (hne : xs ≠ []) :
    (∀ k ∈ rank_lower xs, 1 ≤ k ∧ k ≤ xs.length)
    ∧ (∀ k ∈ rank_higher xs, 1 ≤ k ∧ k ≤ xs.length)
    ∧ (∀ i j : ℕ, xs[i]? = xs[j]? →
        (rank_lower xs)[i]? = (rank_lower xs)[j]?
        ∧ (rank_higher xs)[i]? = (rank_higher xs)[j]?)
    ∧ (rank_lower xs).toFinset = Finset.Icc 1 xs.dedup.length
    ∧ (rank_higher xs).toFinset = Finset.Icc 1 xs.dedup.length := by
  have hD := maxDenseRank_eq xs hne
  have hmin : min xs.length (maxDenseRank xs) = xs.dedup.length := by
    rw [hD]
    exact min_eq_right (dedup_length_le xs)
  refine ⟨?_, ?_, ?_, ?_, ?_⟩
  · intro k hk
    obtain ⟨v, hv, rfl⟩ := List.mem_map.mp hk
    exact ⟨one_le_rankVal xs v hv,
      (rankVal_le_dedup_length xs v).trans (dedup_length_le xs)⟩
  · intro k hk
    obtain ⟨ri, hri, rfl⟩ := List.mem_map.mp hk
    obtain ⟨v, hv, rfl⟩ := List.mem_map.mp hri
    have h1 := one_le_rankVal xs v hv
    have h2 := rankVal_le_dedup_length xs v
    have h3 := dedup_length_le xs
    rw [hmin]
    omega
  · intro i j hij
    constructor
    · rw [rank_lower, rankdataDense, List.getElem?_map, List.getElem?_map, hij]
    · rw [rank_higher, rankdataDense, List.map_map, List.getElem?_map,
        List.getElem?_map, hij]
  · rw [rank_lower, rankdataDense, map_toFinset, image_rankVal]
  · rw [rank_higher, rankdataDense, List.map_map, map_toFinset,
      ← Finset.image_image, image_rankVal]
    simp only [hmin]
    exact icc_reflect _

/-- C3 witness at the column `[3, 1, 1]` (a tie on the minimum): the set of
assigned "lower is better" ranks is exactly `{1, 2}`. -/
theorem c3_witness :
    ([(3 : ℚ), 1, 1] ≠ ([] : List ℚ))
    ∧ (rank_lower [(3 : ℚ), 1, 1]).toFinset
        = Finset.Icc 1 ([(3 : ℚ), 1, 1].dedup.length) :=
  ⟨by decide, (c3_rank_bounds_ties_gapless [(3 : ℚ), 1, 1] (by decide)).2.2.2.1⟩

/-- C4 witness: a tokenizer for which every word has exactly one sub-word
token, words `["a", "b"]`, rationale `[0, 1]`. -/
theorem c4_witness :
    (["a", "b"].length = ([0, 1] : List ℤ).length)
    ∧ get_true_rational_tokens (fun _ => [101, 7, 102]) ["a", "b"] [0, 1]
        = (["a", "b"].zip ([0, 1] : List ℤ)).flatMap
            (fun p => List.replicate (tokenCount (fun _ => [101, 7, 102]) p.1) p.2) :=
  ⟨rfl, (c4_aligner_replication (fun _ => [101, 7, 102]) ["a", "b"] [0, 1] rfl).1⟩

/-! ## Lemmas about `_maybe_dedup_names` -/

lemma dedupLoop_spec :
    ∀ {fuel : ℕ} {counts : String → ℕ} {col col' : String} {counts' : String → ℕ},
      dedupLoop fuel counts col = some (col', counts') →
      counts' col' = 0
      ∧ (∀ k, counts' k = 0 ↔ counts k = 0)
      ∧ (counts col = 0 → col' = col ∧ counts' = counts)
      ∧ (counts col ≠ 0 → ∃ t, col' = col ++ "." ++ t) := by
  intro fuel
  induction fuel with
  | zero =>
    intro counts col col' counts' h
    rw [dedupLoop] at h
    by_cases hc : counts col = 0
    · rw [if_pos hc] at h
      simp only [Option.some.injEq, Prod.mk.injEq] at h
      obtain ⟨rfl, rfl⟩ := h
      exact ⟨hc, fun _ => Iff.rfl, fun _ => ⟨rfl, rfl⟩, fun hne => absurd hc hne⟩
    · rw [if_neg hc] at h
      exact absurd h (by simp)
  | succ fuel ih =>
    intro counts col col' counts' h
    rw [dedupLoop] at h
    by_cases hc : counts col = 0
    · rw [if_pos hc] at h
      simp only [Option.some.injEq, Prod.mk.injEq] at h
      obtain ⟨rfl, rfl⟩ := h
      exact ⟨hc, fun _ => Iff.rfl, fun _ => ⟨rfl, rfl⟩, fun hne => absurd hc hne⟩
    · rw [if_neg hc] at h
      obtain ⟨h1, h2, h3, h4⟩ := ih h
      refine ⟨h1, ?_, fun h0 => absurd h0 hc, ?_⟩
      · intro k
        rw [h2 k]
        by_cases hk : k = col
        · subst hk
          rw [Function.update_same]
          constructor
          · intro hu; omega
          · intro hk0; exact absurd hk0 hc
        · rw [Function.update_noteq hk]
      · intro _
        by_cases hz :
            Function.update counts col (counts col + 1)
              (col ++ "." ++ toString (counts col)) = 0
        · obtain ⟨rfl, -⟩ := h3 hz
          exact ⟨toString (counts col), rfl⟩
        · obtain ⟨t, ht⟩ := h4 hz
          refine ⟨toString (counts col) ++ "." ++ t, ?_⟩
          rw [ht]
          simp [String.append_assoc]

lemma dedupLoop_isSome (S : Finset String) :
    ∀ (fuel : ℕ) (counts : String → ℕ) (col : String),
      (∀ k, counts k ≠ 0 → k ∈ S) →
      (S.filter (fun k => col.length ≤ k.length)).card ≤ fuel →
      (dedupLoop fuel counts col).isSome := by
  intro fuel
  induction fuel with
  | zero =>
    intro counts col hS hcard
    rw [dedupLoop]
    by_cases hc : counts col = 0
    · simp [hc]
    · exfalso
      have hcol : col ∈ S.filter (fun k => col.length ≤ k.length) :=
        Finset.mem_filter.mpr ⟨hS col hc, le_refl _⟩
      have := Finset.card_pos.mpr ⟨col, hcol⟩
      omega
  | succ fuel ih =>
    intro counts col hS hcard
    rw [dedupLoop]
    by_cases hc : counts col = 0
    · simp [hc]
    · rw [if_neg hc]
      apply ih
      · intro k hk
        by_cases hkc : k = col
        · subst hkc; exact hS k hc
        · rw [Function.update_noteq hkc] at hk
          exact hS k hk
      · have hlen : col.length < (col ++ "." ++ toString (counts col)).length := by
          rw [String.length_append, String.length_append]
          have hdot : (".".length : ℕ) = 1 := rfl
          omega
        have hsub :
            S.filter (fun k => (col ++ "." ++ toString (counts col)).length ≤ k.length)
              ⊆ S.filter (fun k => col.length ≤ k.length) := by
          intro k hk
          rw [Finset.mem_filter] at hk ⊢
          exact ⟨hk.1, le_trans hlen.le hk.2⟩
        have hmem : col ∈ S.filter (fun k => col.length ≤ k.length) :=
          Finset.mem_filter.mpr ⟨hS col hc, le_refl _⟩
        have hnotmem :
            col ∉ S.filter
              (fun k => (col ++ "." ++ toString (counts col)).length ≤ k.length) := by
          rw [Finset.mem_filter]
          rintro ⟨-, hcl⟩
          omega
        have hlt :
            (S.filter
                (fun k => (col ++ "." ++ toString (counts col)).length ≤ k.length)).card
              < (S.filter (fun k => col.length ≤ k.length)).card := by
          apply Finset.card_lt_card
          rw [Finset.ssubset_iff_of_subset hsub]
          exact ⟨col, hmem, hnotmem⟩
        omega

lemma dedupGo_spec :
    ∀ (names : List String) (fuel : ℕ) (counts : String → ℕ)
      (assigned : Finset String) (processed : List String),
      (∀ k, counts k ≠ 0 ↔ k ∈ assigned) →
      (∀ p ∈ processed, counts p ≠ 0) →
      assigned.card + names.length ≤ fuel →
      ∃ out, dedupGo fuel counts names = some out
        ∧ out.length = names.length
        ∧ (∀ i (hi : i < names.length) (ho : i < out.length),
            out.get ⟨i, ho⟩ = names.get ⟨i, hi⟩
            ∨ ∃ t, out.get ⟨i, ho⟩ = names.get ⟨i, hi⟩ ++ "." ++ t)
        ∧ (∀ i (hi : i < names.length) (ho : i < out.length),
            (names.get ⟨i, hi⟩ ∈ processed
              ∨ ∃ j, ∃ hj : j < i, names.get ⟨j, hj.trans hi⟩ = names.get ⟨i, hi⟩) →
            ∃ t, out.get ⟨i, ho⟩ = names.get ⟨i, hi⟩ ++ "." ++ t)
        ∧ out.Nodup
        ∧ (∀ k ∈ out, k ∉ assigned) := by
  intro names
  induction names with
  | nil =>
    intro fuel counts assigned processed hpos hproc hfuel
    refine ⟨[], rfl, rfl, ?_, ?_, List.nodup_nil, by simp⟩
    · intro i hi; exact absurd hi (Nat.not_lt_zero i)
    · intro i hi; exact absurd hi (Nat.not_lt_zero i)
  | cons n rest ih =>
    intro fuel counts assigned processed hpos hproc hfuel
    have hcardle : (assigned.filter (fun k => n.length ≤ k.length)).card ≤ fuel := by
      have h1 := Finset.card_filter_le assigned (fun k => n.length ≤ k.length)
      simp only [List.length_cons] at hfuel
      omega
    have hloop : (dedupLoop fuel counts n).isSome :=
      dedupLoop_isSome assigned fuel counts n (fun k hk => (hpos k).mp hk) hcardle
    obtain ⟨p, heq⟩ := Option.isSome_iff_exists.mp hloop
    obtain ⟨col, counts1⟩ := p
    obtain ⟨hexit, hiff, hzero, hsuffix⟩ := dedupLoop_spec heq
    have hpos2 : ∀ k, Function.update counts1 col (counts1 col + 1) k ≠ 0
        ↔ k ∈ insert col assigned := by
      intro k
      by_cases hk : k = col
      · subst hk
        rw [Function.update_same]
        simp
      · rw [Function.update_noteq hk]
        have : counts1 k ≠ 0 ↔ counts k ≠ 0 := not_congr (hiff k)
        rw [this, hpos k, Finset.mem_insert]
        exact ⟨Or.inr, fun h => h.elim (fun hc => absurd hc hk) id⟩
    have hcount1 : ∀ p, counts p ≠ 0 → counts1 p ≠ 0 :=
      fun p hp => fun h1 => hp ((hiff p).mp h1)
    have hcount2 : ∀ p, counts1 p ≠ 0 →
        Function.update counts1 col (counts1 col + 1) p ≠ 0 := by
      intro p hp
      by_cases hpc : p = col
      · subst hpc; rw [Function.update_same]; omega
      · rw [Function.update_noteq hpc]; exact hp
    have hproc2 : ∀ p ∈ processed ++ [n],
        Function.update counts1 col (counts1 col + 1) p ≠ 0 := by
      intro p hp
      rcases List.mem_append.mp hp with hp | hp
      · exact hcount2 p (hcount1 p (hproc p hp))
      · have hpn : p = n := by simpa using hp
        subst hpn
        by_cases hcn : counts p = 0
        · obtain ⟨rfl, rfl⟩ := hzero hcn
          rw [Function.update_same]
          omega
        · exact hcount2 p (hcount1 p hcn)
    have hfuel2 : (insert col assigned).card + rest.length ≤ fuel := by
      have h1 := Finset.card_insert_le col assigned
      simp only [List.length_cons] at hfuel
      omega
    obtain ⟨out, hout, hlen, hpoint, hdupout, hnodup, hfresh⟩ :=
      ih fuel (Function.update counts1 col (counts1 col + 1))
        (insert col assigned) (processed ++ [n]) hpos2 hproc2 hfuel2
    have hcons : dedupGo fuel counts (n :: rest) = some (col :: out) := by
      rw [dedupGo, heq]
      simp only [hout]
    have hheadOr : col = n ∨ ∃ t, col = n ++ "." ++ t := by
      by_cases hcn : counts n = 0
      · exact Or.inl (hzero hcn).1
      · exact Or.inr (hsuffix hcn)
    refine ⟨col :: out, hcons, by simp [hlen], ?_, ?_, ?_, ?_⟩
    · intro i hi ho
      cases i with
      | zero => simpa using hheadOr
      | succ i =>
        have hi' : i < rest.length := by simpa using hi
        have ho' : i < out.length := by simpa using ho
        simpa using hpoint i hi' ho'
    · intro i hi ho hcond
      cases i with
      | zero =>
        simp only [List.get] at hcond ⊢
        rcases hcond with hmem | ⟨j, hj, -⟩
        · exact hsuffix (hproc n hmem)
        · exact absurd hj (Nat.not_lt_zero j)
      | succ i =>
        have hi' : i < rest.length := by simpa using hi
        have ho' : i < out.length := by simpa using ho
        have hcond' : rest.get ⟨i, hi'⟩ ∈ processed ++ [n]
            ∨ ∃ j, ∃ hj : j < i, rest.get ⟨j, hj.trans hi'⟩ = rest.get ⟨i, hi'⟩ := by
          rcases hcond with hmem | ⟨j, hj, hjeq⟩
          · left
            exact List.mem_append_left _ (by simpa using hmem)
          · cases j with
            | zero =>
              left
              apply List.mem_append_right
              have hgn : rest.get ⟨i, hi'⟩ = n := by
                have hs := hjeq.symm
                simpa using hs
              simpa using hgn
            | succ j =>
              right
              have hj' : j < i := by omega
              exact ⟨j, hj', by simpa using hjeq⟩
        simpa using hdupout i hi' ho' hcond'
    · refine List.nodup_cons.mpr ⟨?_, hnodup⟩
      intro hc
      exact (hfresh col hc) (Finset.mem_insert_self col assigned)
    · intro k hk
      rcases List.mem_cons.mp hk with rfl | hk
      · intro hka
        have : counts k ≠ 0 := (hpos k).mpr hka
        exact this ((hiff k).mp hexit)
      · intro hka
        exact (hfresh k hk) (Finset.mem_insert_of_mem hka)

lemma maybe_dedup_names_total (names : List String) :
    maybe_dedup_names names = some (dedup_names_total names) := by
  obtain ⟨out, hout, -⟩ :=
    dedupGo_spec names names.length (fun _ => 0) ∅ [] (by simp) (by simp) (by simp)
  rw [dedup_names_total, maybe_dedup_names, hout]
  rfl

/-- C5: whenever the input column names contain a duplicate,
`evaluate_explainers` rewrites the working copy's column names (before the
score-table merge; see the pipeline definition below) so that the result has
the same length with positions corresponding one-to-one to the input, all
names are pairwise distinct, and every occurrence beyond the first of a
repeated name receives a positional `.<k>` disambiguation suffix. -/
theorem c5_duplicate_column_disambiguation (names : List String)
    (hdup : ¬ names.Nodup) :
    ∃ out, dedupColumns names = some out
      ∧ out.length = names.length
      ∧ out.Nodup
      ∧ (∀ i (hi : i < names.length) (ho : i < out.length),
          out.get ⟨i, ho⟩ = names.get ⟨i, hi⟩
          ∨ ∃ t, out.get ⟨i, ho⟩ = names.get ⟨i, hi⟩ ++ "." ++ t)
      ∧ (∀ i (hi : i < names.length) (ho : i < out.length),
          (∃ j, ∃ hj : j < i, names.get ⟨j, hj.trans hi⟩ = names.get ⟨i, hi⟩) →
          ∃ t, out.get ⟨i, ho⟩ = names.get ⟨i, hi⟩ ++ "." ++ t) := by
  obtain ⟨out, hout, hlen, hpoint, hdupout, hnodup, -⟩ :=
    dedupGo_spec names names.length (fun _ => 0) ∅ [] (by simp) (by simp) (by simp)
  refine ⟨out, ?_, hlen, hnodup, hpoint, ?_⟩
  · rw [dedupColumns, if_neg hdup, maybe_dedup_names]
    exact hout
  · intro i hi ho hcond
    exact hdupout i hi ho (Or.inr hcond)

/-- C5 witness at the columns `["a", "a"]`. -/
theorem c5_witness :
    ¬ (["a", "a"] : List String).Nodup
    ∧ ∃ out, dedupColumns ["a", "a"] = some out
      ∧ out.length = (["a", "a"] : List String).length
      ∧ out.Nodup
      ∧ (∀ i (hi : i < (["a", "a"] : List String).length) (ho : i < out.length),
          out.get ⟨i, ho⟩ = (["a", "a"] : List String).get ⟨i, hi⟩
          ∨ ∃ t, out.get ⟨i, ho⟩
              = (["a", "a"] : List String).get ⟨i, hi⟩ ++ "." ++ t)
      ∧ (∀ i (hi : i < (["a", "a"] : List String).length) (ho : i < out.length),
          (∃ j, ∃ hj : j < i,
              (["a", "a"] : List String).get ⟨j, hj.trans hi⟩
                = (["a", "a"] : List String).get ⟨i, hi⟩) →
          ∃ t, out.get ⟨i, ho⟩
              = (["a", "a"] : List String).get ⟨i, hi⟩ ++ "." ++ t) :=
  ⟨by decide, c5_duplicate_column_disambiguation ["a", "a"] (by decide)⟩

/-! ## Lemmas about the score table -/

lemma lookupScore_congr {t1 t2 : ScoreTable} (k : String)
    (h : t1 k = t2 k) (r : String) : lookupScore t1 k r = lookupScore t2 k r := by
  rw [lookupScore, lookupScore, h]

lemma addScore_apply_ne (tbl : ScoreTable) (n r : String) (v : ℚ) {k : String}
    (hk : k ≠ n) : addScore tbl n r v k = tbl k := by
  rw [addScore]
  exact Function.update_noteq hk _ _

lemma lookupScore_addScore_same (tbl : ScoreTable) (n r : String) (v : ℚ) :
    lookupScore (addScore tbl n r v) n r = some v := by
  rw [lookupScore, addScore]
  simp

lemma lookupScore_addScore_ne_row (tbl : ScoreTable) (n r : String) (v : ℚ)
    {k r' : String} (hr : r' ≠ r) :
    lookupScore (addScore tbl n r v) k r' = lookupScore tbl k r' := by
  by_cases hk : k = n
  · subst hk
    rw [lookupScore, addScore]
    simp only [Function.update_same, Function.update_noteq hr]
    cases htk : tbl k with
    | none => simp [lookupScore, htk]
    | some inner => simp [lookupScore, htk]
  · rw [lookupScore, addScore_apply_ne tbl n r v hk, lookupScore]

lemma foldl_addScore_apply_notMem {α : Type _} (nameOf : α → String) (f : α → ℚ)
    (row : String) :
    ∀ (ms : List α) (tbl : ScoreTable) (k : String), k ∉ ms.map nameOf →
      (ms.foldl (fun t m => addScore t (nameOf m) row (f m)) tbl) k = tbl k := by
  intro ms
  induction ms with
  | nil => intro tbl k _; rfl
  | cons m ms ih =>
    intro tbl k hk
    simp only [List.map_cons, List.mem_cons, not_or] at hk
    rw [List.foldl_cons, ih _ k hk.2, addScore_apply_ne tbl _ row _ hk.1]

lemma foldl_addScore_lookup_mem {α : Type _} (nameOf : α → String) (f : α → ℚ)
    (row : String) :
    ∀ (ms : List α) (tbl : ScoreTable) (m : α), m ∈ ms → (ms.map nameOf).Nodup →
      lookupScore (ms.foldl (fun t x => addScore t (nameOf x) row (f x)) tbl)
        (nameOf m) row = some (f m) := by
  intro ms
  induction ms with
  | nil => intro tbl m hm; cases hm
  | cons a ms ih =>
    intro tbl m hm hnd
    simp only [List.map_cons, List.nodup_cons] at hnd
    rw [List.foldl_cons]
    rcases List.mem_cons.mp hm with rfl | hm
    · refine (lookupScore_congr _ ?_ _).trans
        (lookupScore_addScore_same tbl (nameOf m) row (f m))
      exact foldl_addScore_apply_notMem nameOf f row ms _ (nameOf m) hnd.1
    · exact ih _ m hm hnd.2

lemma foldl_addScore_lookup_ne_row {α : Type _} (nameOf : α → String) (f : α → ℚ)
    (row : String) {r' : String} (hr : r' ≠ row) :
    ∀ (ms : List α) (tbl : ScoreTable) (k : String),
      lookupScore (ms.foldl (fun t x => addScore t (nameOf x) row (f x)) tbl) k r'
        = lookupScore tbl k r' := by
  intro ms
  induction ms with
  | nil => intro tbl k; rfl
  | cons a ms ih =>
    intro tbl k
    rw [List.foldl_cons, ih _ k, lookupScore_addScore_ne_row _ _ _ _ hr]

lemma evalRow_apply_none {ρ : Type} (faith : List FMetric) (plaus : List (PMetric ρ))
    (other : List FMetric) (text : String) (target : ℤ) (tbl : ScoreTable)
    (rowName : String) (scores : List (Option ℚ)) {k : String}
    (hf : k ∉ faith.map (fun m => m.SHORT_NAME))
    (ho : k ∉ other.map (fun m => m.SHORT_NAME)) :
    evalRow faith plaus other text target none tbl rowName scores k = tbl k := by
  rw [evalRow.eq_def]
  dsimp only
  exact (foldl_addScore_apply_notMem (fun m => m.SHORT_NAME)
      (fun m => m.evaluate_explanation text scores target) rowName other _ k ho).trans
    (foldl_addScore_apply_notMem (fun m => m.SHORT_NAME)
      (fun m => m.evaluate_explanation text scores target) rowName faith tbl k hf)

lemma evalRow_lookup_ne_row {ρ : Type} (faith : List FMetric) (plaus : List (PMetric ρ))
    (other : List FMetric) (text : String) (target : ℤ) (rat : Option ρ)
    (tbl : ScoreTable) (rowName : String) (scores : List (Option ℚ))
    {k r' : String} (hr : r' ≠ rowName) :
    lookupScore (evalRow faith plaus other text target rat tbl rowName scores) k r'
      = lookupScore tbl k r' := by
  rw [evalRow.eq_def]
  dsimp only
  cases rat with
  | none =>
    exact (foldl_addScore_lookup_ne_row _ _ _ hr other _ k).trans
      (foldl_addScore_lookup_ne_row _ _ _ hr faith tbl k)
  | some r0 =>
    by_cases hp : 0 < plaus.length
    · simp only [hp, if_true]
      exact ((foldl_addScore_lookup_ne_row _ _ _ hr other _ k).trans
        (foldl_addScore_lookup_ne_row _ _ _ hr plaus _ k)).trans
        (foldl_addScore_lookup_ne_row _ _ _ hr faith tbl k)
    · simp only [hp, if_false]
      exact (foldl_addScore_lookup_ne_row _ _ _ hr other _ k).trans
        (foldl_addScore_lookup_ne_row _ _ _ hr faith tbl k)

lemma nodup_triple_split {A B C : List String} (h : (A ++ B ++ C).Nodup) :
    A.Nodup ∧ B.Nodup ∧ C.Nodup
    ∧ (∀ x ∈ A, x ∉ B ∧ x ∉ C)
    ∧ (∀ x ∈ B, x ∉ A ∧ x ∉ C)
    ∧ (∀ x ∈ C, x ∉ A ∧ x ∉ B) := by
  rw [List.nodup_append] at h
  obtain ⟨hAB, hC, hdisj⟩ := h
  rw [List.nodup_append] at hAB
  obtain ⟨hA, hB, hABd⟩ := hAB
  refine ⟨hA, hB, hC, ?_, ?_, ?_⟩
  · intro x hx
    exact ⟨fun hB' => hABd hx hB', fun hC' => hdisj (List.mem_append_left _ hx) hC'⟩
  · intro x hx
    exact ⟨fun hA' => hABd hA' hx, fun hC' => hdisj (List.mem_append_right _ hx) hC'⟩
  · intro x hx
    exact ⟨fun hA' => hdisj (List.mem_append_left _ hA') hx,
      fun hB' => hdisj (List.mem_append_right _ hB') hx⟩

lemma evalRow_lookup_faith {ρ : Type} (faith : List FMetric) (plaus : List (PMetric ρ))
    (other : List FMetric) (text : String) (target : ℤ) (rat : Option ρ)
    (tbl : ScoreTable) (rowName : String) (scores : List (Option ℚ))
    {m : FMetric} (hm : m ∈ faith)
    (hnd : (faith.map (fun x => x.SHORT_NAME)).Nodup)
    (hnp : m.SHORT_NAME ∉ plaus.map (fun x => x.SHORT_NAME))
    (hno : m.SHORT_NAME ∉ other.map (fun x => x.SHORT_NAME)) :
    lookupScore (evalRow faith plaus other text target rat tbl rowName scores)
      m.SHORT_NAME rowName = some (m.evaluate_explanation text scores target) := by
  rw [evalRow.eq_def]
  dsimp only
  have hfaith := foldl_addScore_lookup_mem (fun x => x.SHORT_NAME)
    (fun x => x.evaluate_explanation text scores target) rowName faith tbl m hm hnd
  cases rat with
  | none =>
    exact (lookupScore_congr _
      (foldl_addScore_apply_notMem _ _ _ other _ _ hno) _).trans hfaith
  | some r0 =>
    by_cases hp : 0 < plaus.length
    · simp only [hp, if_true]
      exact (lookupScore_congr _
        (foldl_addScore_apply_notMem _ _ _ other _ _ hno) _).trans
        ((lookupScore_congr _
          (foldl_addScore_apply_notMem _ _ _ plaus _ _ hnp) _).trans hfaith)
    · simp only [hp, if_false]
      exact (lookupScore_congr _
        (foldl_addScore_apply_notMem _ _ _ other _ _ hno) _).trans hfaith

lemma evalRow_lookup_plaus {ρ : Type} (faith : List FMetric) (plaus : List (PMetric ρ))
    (other : List FMetric) (text : String) (target : ℤ) (r0 : ρ)
    (tbl : ScoreTable) (rowName : String) (scores : List (Option ℚ))
    {p : PMetric ρ} (hp : p ∈ plaus)
    (hnd : (plaus.map (fun x => x.SHORT_NAME)).Nodup)
    (hno : p.SHORT_NAME ∉ other.map (fun x => x.SHORT_NAME)) :
    lookupScore (evalRow faith plaus other text target (some r0) tbl rowName scores)
      p.SHORT_NAME rowName = some (p.evaluate_explanation text scores r0) := by
  rw [evalRow.eq_def]
  dsimp only
  have hlen : 0 < plaus.length := List.length_pos.mpr (fun h => by subst h; cases hp)
  simp only [hlen, if_true]
  exact (lookupScore_congr _
    (foldl_addScore_apply_notMem _ _ _ other _ _ hno) _).trans
    (foldl_addScore_lookup_mem (fun x => x.SHORT_NAME)
      (fun x => x.evaluate_explanation text scores r0) rowName plaus _ p hp hnd)

lemma evalRow_lookup_other {ρ : Type} (faith : List FMetric) (plaus : List (PMetric ρ))
    (other : List FMetric) (text : String) (target : ℤ) (rat : Option ρ)
    (tbl : ScoreTable) (rowName : String) (scores : List (Option ℚ))
    {m : FMetric} (hm : m ∈ other)
    (hnd : (other.map (fun x => x.SHORT_NAME)).Nodup) :
    lookupScore (evalRow faith plaus other text target rat tbl rowName scores)
      m.SHORT_NAME rowName = some (m.evaluate_explanation text scores target) := by
  rw [evalRow.eq_def]
  dsimp only
  cases rat with
  | none =>
    exact foldl_addScore_lookup_mem _ _ _ other _ m hm hnd
  | some r0 =>
    by_cases hpl : 0 < plaus.length
    · simp only [hpl, if_true]
      exact foldl_addScore_lookup_mem _ _ _ other _ m hm hnd
    · simp only [hpl, if_false]
      exact foldl_addScore_lookup_mem _ _ _ other _ m hm hnd

lemma foldl_evalRow_lookup_ne_rows {ρ : Type} (faith : List FMetric)
    (plaus : List (PMetric ρ)) (other : List FMetric) (text : String) (target : ℤ)
    (rat : Option ρ) (k rlabel : String) :
    ∀ (rows : List (String × List (Option ℚ))) (init : ScoreTable),
      (∀ rs ∈ rows, rs.1 ≠ rlabel) →
      lookupScore (rows.foldl
          (fun t r => evalRow faith plaus other text target rat t r.1 r.2) init) k rlabel
        = lookupScore init k rlabel := by
  intro rows
  induction rows with
  | nil => intro init _; rfl
  | cons r0 rows ih =>
    intro init hne
    rw [List.foldl_cons, ih _ (fun rs hrs => hne rs (List.mem_cons_of_mem _ hrs)),
      evalRow_lookup_ne_row faith plaus other text target rat init r0.1 r0.2
        (Ne.symm (hne r0 (List.mem_cons_self _ _)))]

lemma foldl_evalRow_lookup_row {ρ : Type} (faith : List FMetric)
    (plaus : List (PMetric ρ)) (other : List FMetric) (text : String) (target : ℤ)
    (rat : Option ρ) (name : String) (val : List (Option ℚ) → ℚ)
    (hset : ∀ (tbl : ScoreTable) (rowName : String) (scores : List (Option ℚ)),
      lookupScore (evalRow faith plaus other text target rat tbl rowName scores)
        name rowName = some (val scores)) :
    ∀ (rows : List (String × List (Option ℚ))) (init : ScoreTable),
      (rows.map Prod.fst).Nodup →
      ∀ rs ∈ rows,
        lookupScore (rows.foldl
            (fun t r => evalRow faith plaus other text target rat t r.1 r.2) init)
          name rs.1 = some (val rs.2) := by
  intro rows
  induction rows with
  | nil => intro init _ rs hrs; cases hrs
  | cons r0 rows ih =>
    intro init hnd rs hrs
    simp only [List.map_cons, List.nodup_cons] at hnd
    rw [List.foldl_cons]
    rcases List.mem_cons.mp hrs with rfl | hrs
    · have hne : ∀ r' ∈ rows, r'.1 ≠ rs.1 := by
        intro r' hr' heq
        exact hnd.1 (heq ▸ List.mem_map_of_mem Prod.fst hr')
      rw [foldl_evalRow_lookup_ne_rows faith plaus other text target rat name rs.1
        rows _ hne]
      exact hset init rs.1 rs.2
    · exact ih _ hnd.2 rs hrs

lemma evaluation_scores_apply_no_rationale {ρ : Type} (faith : List FMetric)
    (plaus : List (PMetric ρ)) (other : List FMetric) (text : String) (target : ℤ)
    {k : String}
    (hf : k ∉ faith.map (fun m => m.SHORT_NAME))
    (ho : k ∉ other.map (fun m => m.SHORT_NAME)) :
    ∀ (rows : List (String × List (Option ℚ))) (init : ScoreTable),
      (rows.foldl
        (fun t r => evalRow faith plaus other text target none t r.1 r.2) init) k
        = init k := by
  intro rows
  induction rows with
  | nil => intro init; rfl
  | cons r0 rows ih =>
    intro init
    rw [List.foldl_cons, ih _,
      evalRow_apply_none faith plaus other text target init r0.1 r0.2 hf ho]

/-- C7: when no rationale is supplied, no plausibility score is recorded and
no plausibility metric name appears as a key of the score table (the key is
absent, not a null placeholder), while every faithfulness metric and every
"other" metric is still evaluated for every explainer row. -/
theorem c7_no_rationale_skips_plausibility {ρ : Type} (faith : List FMetric)
    (plaus : List (PMetric ρ)) (other : List FMetric) (text : String) (target : ℤ)
    (rows : List (String × List (Option ℚ)))
    (hnames : ((faith.map fun m => m.SHORT_NAME) ++ (plaus.map fun m => m.SHORT_NAME)
        ++ (other.map fun m => m.SHORT_NAME)).Nodup)
    (hrows : (rows.map Prod.fst).Nodup) :
    (∀ p ∈ plaus,
        evaluation_scores faith plaus other text target none rows p.SHORT_NAME = none)
    ∧ (∀ m ∈ faith, ∀ rs ∈ rows,
        lookupScore (evaluation_scores faith plaus other text target none rows)
          m.SHORT_NAME rs.1 = some (m.evaluate_explanation text rs.2 target))
    ∧ (∀ m ∈ other, ∀ rs ∈ rows,
        lookupScore (evaluation_scores faith plaus other text target none rows)
          m.SHORT_NAME rs.1 = some (m.evaluate_explanation text rs.2 target)) := by
  obtain ⟨hA, hB, hC, hAn, hBn, hCn⟩ := nodup_triple_split hnames
  refine ⟨?_, ?_, ?_⟩
  · intro p hp
    have hmem := List.mem_map_of_mem (fun m : PMetric ρ => m.SHORT_NAME) hp
    unfold evaluation_scores
    rw [evaluation_scores_apply_no_rationale faith plaus other text target
      (hBn _ hmem).1 (hBn _ hmem).2 rows emptyScores]
    rfl
  · intro m hm rs hrs
    have hmem := List.mem_map_of_mem (fun x : FMetric => x.SHORT_NAME) hm
    unfold evaluation_scores
    refine foldl_evalRow_lookup_row faith plaus other text target none m.SHORT_NAME
      (fun scores => m.evaluate_explanation text scores target) ?_ rows emptyScores
      hrows rs hrs
    intro tbl rowName scores
    exact evalRow_lookup_faith faith plaus other text target none tbl rowName scores
      hm hA (hAn _ hmem).1 (hAn _ hmem).2
  · intro m hm rs hrs
    unfold evaluation_scores
    refine foldl_evalRow_lookup_row faith plaus other text target none m.SHORT_NAME
      (fun scores => m.evaluate_explanation text scores target) ?_ rows emptyScores
      hrows rs hrs
    intro tbl rowName scores
    exact evalRow_lookup_other faith plaus other text target none tbl rowName scores
      hm hC

/-- C7 witness: one faithfulness metric `"f"`, one plausibility metric `"p"`,
one explainer row, no rationale: the key `"p"` is absent from the score
table. -/
theorem c7_witness :
    ((([⟨"f", some false, fun _ _ _ => 1⟩] : List FMetric).map fun m => m.SHORT_NAME)
        ++ (([⟨"p", none, fun _ _ _ => 2⟩] : List (PMetric ℤ)).map fun m => m.SHORT_NAME)
        ++ (([] : List FMetric).map fun m => m.SHORT_NAME)).Nodup
    ∧ (([(("e", [some 1]) : String × List (Option ℚ))].map Prod.fst).Nodup)
    ∧ evaluation_scores [⟨"f", some false, fun _ _ _ => 1⟩]
        ([⟨"p", none, fun _ _ _ => 2⟩] : List (PMetric ℤ)) [] "t" 1 none
        [("e", [some 1])] "p" = none :=
  ⟨by decide, by decide,
    (c7_no_rationale_skips_plausibility
        [⟨"f", some false, fun _ _ _ => 1⟩]
        ([⟨"p", none, fun _ _ _ => 2⟩] : List (PMetric ℤ)) [] "t" 1
        [("e", [some 1])] (by decide) (by decide)).1
      ⟨"p", none, fun _ _ _ => 2⟩ (List.mem_singleton_self _)⟩

/-- C9: when a rationale is supplied, every plausibility metric receives, for
every explainer row, exactly the rationale value the caller passed (`rat0`
verbatim, of arbitrary type `ρ`, so the driver cannot have transformed it);
and the result of `evaluate_explainers` is independent of the evaluator's
tokenizer, so the word-to-token aligner `get_true_rational_tokens` — the only
consumer of the tokenizer — is never invoked by it. -/
theorem c9_rationale_passed_verbatim {ρ : Type} (faith : List FMetric)
    (plaus : List (PMetric ρ)) (other : List FMetric) (text : String) (target : ℤ)
    (rat0 : ρ) (rows : List (String × List (Option ℚ)))
    (hnames : ((faith.map fun m => m.SHORT_NAME) ++ (plaus.map fun m => m.SHORT_NAME)
        ++ (other.map fun m => m.SHORT_NAME)).Nodup)
    (hrows : (rows.map Prod.fst).Nodup) :
    (∀ p ∈ plaus, ∀ rs ∈ rows,
        lookupScore (evaluation_scores faith plaus other text target (some rat0) rows)
          p.SHORT_NAME rs.1 = some (p.evaluate_explanation text rs.2 rat0))
    ∧ (∀ t1 t2 : String → List ℕ, ∀ (rank : Bool) (store : List DataFrame) (explId : ℕ),
        evaluate_explainers t1 faith plaus other text target (some rat0) rank store explId
          = evaluate_explainers t2 faith plaus other text target (some rat0) rank store
              explId) := by
  obtain ⟨hA, hB, hC, hAn, hBn, hCn⟩ := nodup_triple_split hnames
  refine ⟨?_, fun t1 t2 rank store explId => rfl⟩
  intro p hp rs hrs
  have hmem := List.mem_map_of_mem (fun x : PMetric ρ => x.SHORT_NAME) hp
  unfold evaluation_scores
  refine foldl_evalRow_lookup_row faith plaus other text target (some rat0) p.SHORT_NAME
    (fun scores => p.evaluate_explanation text scores rat0) ?_ rows emptyScores
    hrows rs hrs
  intro tbl rowName scores
  exact evalRow_lookup_plaus faith plaus other text target rat0 tbl rowName scores
    hp hB (hBn _ hmem).2

/-- C9 witness: a plausibility metric that returns its rationale argument,
rationale `5`: the recorded score is `5` itself. -/
theorem c9_witness :
    ((([⟨"f", some false, fun _ _ _ => 1⟩] : List FMetric).map fun m => m.SHORT_NAME)
        ++ (([⟨"p", some true, fun _ _ r => r⟩] : List (PMetric ℚ)).map fun m => m.SHORT_NAME)
        ++ (([] : List FMetric).map fun m => m.SHORT_NAME)).Nodup
    ∧ (([(("e", [some 1]) : String × List (Option ℚ))].map Prod.fst).Nodup)
    ∧ lookupScore (evaluation_scores [⟨"f", some false, fun _ _ _ => 1⟩]
        ([⟨"p", some true, fun _ _ r => r⟩] : List (PMetric ℚ)) [] "t" 1 (some 5)
        [("e", [some 1])]) "p" "e" = some 5 :=
  ⟨by decide, by decide,
    (c9_rationale_passed_verbatim
        [⟨"f", some false, fun _ _ _ => 1⟩]
        ([⟨"p", some true, fun _ _ r => r⟩] : List (PMetric ℚ)) [] "t" 1 5
        [("e", [some 1])] (by decide) (by decide)).1
      ⟨"p", some true, fun _ _ r => r⟩ (List.mem_singleton_self _)
      ("e", [some 1]) (List.mem_singleton_self _)⟩

/-! ## Lemmas about `_rank_explainers` column ordering -/

lemma dfSetCol_columns (d : DataFrame) (n : String) (vals : List (Option ℚ)) :
    (dfSetCol d n vals).columns = d.columns
    ∨ (dfSetCol d n vals).columns = d.columns ++ [n] := by
  rw [dfSetCol.eq_def]
  cases h : d.columns.indexOf? n with
  | some i => exact Or.inl rfl
  | none => exact Or.inr rfl

lemma foldl_setcol_columns_extra (V : DataFrame → String → List (Option ℚ)) :
    ∀ (cs : List String) (df : DataFrame),
      ∃ extra,
        (cs.foldl (fun d c => dfSetCol d (c ++ "_r") (V d c)) df).columns
          = df.columns ++ extra
        ∧ ∀ e ∈ extra, ∃ c ∈ cs, e = c ++ "_r" := by
  intro cs
  induction cs with
  | nil => intro df; exact ⟨[], by simp, by simp⟩
  | cons c cs ih =>
    intro df
    obtain ⟨extra, he, hall⟩ := ih (dfSetCol df (c ++ "_r") (V df c))
    rcases dfSetCol_columns df (c ++ "_r") (V df c) with hc | hc
    · refine ⟨extra, ?_, ?_⟩
      · rw [List.foldl_cons, he, hc]
      · intro e hee
        obtain ⟨c2, hc2, he2⟩ := hall e hee
        exact ⟨c2, List.mem_cons_of_mem _ hc2, he2⟩
    · refine ⟨(c ++ "_r") :: extra, ?_, ?_⟩
      · rw [List.foldl_cons, he, hc, List.append_assoc]
        rfl
      · intro e hee
        rcases List.mem_cons.mp hee with rfl | hee
        · exact ⟨c, List.mem_cons_self _ _, rfl⟩
        · obtain ⟨c2, hc2, he2⟩ := hall e hee
          exact ⟨c2, List.mem_cons_of_mem _ hc2, he2⟩

lemma flatMap_congr_mem {α β : Type _} (l : List α) (f g : α → List β)
    (h : ∀ a ∈ l, f a = g a) : l.flatMap f = l.flatMap g := by
  induction l with
  | nil => rfl
  | cons a l ih =>
    rw [List.flatMap_cons, List.flatMap_cons, h a (List.mem_cons_self _ _),
      ih (fun b hb => h b (List.mem_cons_of_mem _ hb))]

lemma flatMap_ite_filter {α β : Type _} (p : α → Prop) [DecidablePred p]
    (f : α → List β) :
    ∀ l : List α,
      l.flatMap (fun a => if p a then f a else [])
        = (l.filter (fun a => decide (p a))).flatMap f := by
  intro l
  induction l with
  | nil => rfl
  | cons a l ih =>
    by_cases hp : p a
    · rw [List.flatMap_cons, if_pos hp,
        List.filter_cons_of_pos (by simpa using hp), List.flatMap_cons, ih]
    · rw [List.flatMap_cons, if_neg hp,
        List.filter_cons_of_neg (by simpa using hp), ih]
      simp

/-- C6: with ranking enabled, the columns of the final table are: the token
columns (`score_cols`, the disambiguated `text_tokens`) in order, then for
each metric — in faithfulness, plausibility, other registration order — that
has a scored column and a defined sort direction, its score column
immediately followed by its `<metric>_r` rank column, then the remaining
columns not otherwise placed.  Hypotheses: metric display names are distinct
and no metric is named like a rank column of another metric. -/
theorem c6_final_column_order (measures : List (String × Option Bool))
    (df : DataFrame) (score_cols : List String)
    (hn : (measures.map Prod.fst).Nodup)
    (hr : ∀ m ∈ measures, ∀ m2 ∈ measures, m.1 ≠ m2.1 ++ "_r") :
    ∃ pairs rest,
      (rank_explainers_df measures df score_cols).columns
        = score_cols ++ pairs ++ rest
      ∧ pairs = (measures.filter
            (fun m => decide (m.2.isSome ∧ m.1 ∈ df.columns))).flatMap
          (fun m => [m.1, m.1 ++ "_r"])
      ∧ rest = df.columns.filter (fun c => decide (c ∉ score_cols ++ pairs)) := by
  obtain ⟨extra, hcols, hextra⟩ :=
    foldl_setcol_columns_extra (fun d c => higherRankVals (dfColValues d c))
      ((measures.filter
        (fun m => decide (m.2 = some false ∧ m.1 ∈ df.columns))).map Prod.fst) df
  have hmemiff : ∀ m ∈ measures,
      (m.1 ∈ (rank_higher_pass measures df).1.columns ↔ m.1 ∈ df.columns) := by
    intro m hm
    have hcols2 : (rank_higher_pass measures df).1.columns = df.columns ++ extra :=
      hcols
    rw [hcols2, List.mem_append]
    constructor
    · rintro (h | h)
      · exact h
      · exfalso
        obtain ⟨c, hc, hce⟩ := hextra _ h
        obtain ⟨m2, hm2, he2⟩ := List.mem_map.mp hc
        refine hr m hm m2 (List.mem_of_mem_filter hm2) ?_
        rw [hce, he2]
    · intro h
      exact Or.inl h
  have hlow : (rank_lower_pass measures (rank_higher_pass measures df).1).2
      = (measures.filter
          (fun m => decide (m.2 = some true ∧ m.1 ∈ df.columns))).map Prod.fst := by
    have h0 : (rank_lower_pass measures (rank_higher_pass measures df).1).2
        = (measures.filter (fun m => decide (m.2 = some true
            ∧ m.1 ∈ (rank_higher_pass measures df).1.columns))).map Prod.fst := rfl
    rw [h0]
    congr 1
    apply List.filter_congr
    intro m hm
    simp only [decide_eq_decide]
    exact and_congr_right (fun _ => hmemiff m hm)
  have hhigh : (rank_higher_pass measures df).2
      = (measures.filter
          (fun m => decide (m.2 = some false ∧ m.1 ∈ df.columns))).map Prod.fst := rfl
  have hunion : ∀ m ∈ measures,
      (m.1 ∈ (rank_higher_pass measures df).2
          ++ (rank_lower_pass measures (rank_higher_pass measures df).1).2
        ↔ (m.2.isSome ∧ m.1 ∈ df.columns)) := by
    intro m hm
    rw [hlow, hhigh, List.mem_append]
    constructor
    · rintro (h | h)
      · obtain ⟨m2, hm2, he2⟩ := List.mem_map.mp h
        have hm2p := List.of_mem_filter hm2
        simp only [decide_eq_true_eq] at hm2p
        have heqm : m2 = m :=
          List.inj_on_of_nodup_map hn (List.mem_of_mem_filter hm2) hm he2
        subst heqm
        exact ⟨by simp [hm2p.1], hm2p.2⟩
      · obtain ⟨m2, hm2, he2⟩ := List.mem_map.mp h
        have hm2p := List.of_mem_filter hm2
        simp only [decide_eq_true_eq] at hm2p
        have heqm : m2 = m :=
          List.inj_on_of_nodup_map hn (List.mem_of_mem_filter hm2) hm he2
        subst heqm
        exact ⟨by simp [hm2p.1], hm2p.2⟩
    · rintro ⟨hsome, hmem⟩
      cases hb : m.2 with
      | none => rw [hb] at hsome; simp at hsome
      | some b =>
        cases b
        · left
          exact List.mem_map.mpr
            ⟨m, List.mem_filter.mpr ⟨hm, by simp [hb, hmem]⟩, rfl⟩
        · right
          exact List.mem_map.mpr
            ⟨m, List.mem_filter.mpr ⟨hm, by simp [hb, hmem]⟩, rfl⟩
  have hshow : rank_show_cols measures (rank_higher_pass measures df).2
      (rank_lower_pass measures (rank_higher_pass measures df).1).2
      = (measures.filter
          (fun m => decide (m.2.isSome ∧ m.1 ∈ df.columns))).flatMap
        (fun m => [m.1, m.1 ++ "_r"]) := by
    rw [rank_show_cols, List.flatMap_map,
      ← flatMap_ite_filter
        (fun m : String × Option Bool => m.2.isSome ∧ m.1 ∈ df.columns)
        (fun m => [m.1, m.1 ++ "_r"]) measures]
    apply flatMap_congr_mem
    intro m hm
    by_cases hc : m.1 ∈ (rank_higher_pass measures df).2
        ++ (rank_lower_pass measures (rank_higher_pass measures df).1).2
    · rw [if_pos hc, if_pos ((hunion m hm).mp hc)]
    · rw [if_neg hc, if_neg (fun hq => hc ((hunion m hm).mpr hq))]
  refine ⟨(measures.filter
      (fun m => decide (m.2.isSome ∧ m.1 ∈ df.columns))).flatMap
        (fun m => [m.1, m.1 ++ "_r"]), _, ?_, rfl, rfl⟩
  have hc0 : (rank_explainers_df measures df score_cols).columns
      = rank_output_cols measures df.columns score_cols
          (rank_higher_pass measures df).2
          (rank_lower_pass measures (rank_higher_pass measures df).1).2 := rfl
  rw [hc0, rank_output_cols, hshow]

/-- C6 witness: one higher-is-better metric `"m"` with a scored column, token
column `"t"`. -/
theorem c6_witness :
    (([(("m", some false) : String × Option Bool)].map Prod.fst).Nodup)
    ∧ (∀ m ∈ [(("m", some false) : String × Option Bool)],
        ∀ m2 ∈ [(("m", some false) : String × Option Bool)], m.1 ≠ m2.1 ++ "_r")
    ∧ ∃ pairs rest,
      (rank_explainers_df [("m", some false)]
          ⟨["t", "m"], [("e", [some 1, some 2])]⟩ ["t"]).columns
        = ["t"] ++ pairs ++ rest
      ∧ pairs = ([(("m", some false) : String × Option Bool)].filter
            (fun m => decide (m.2.isSome
              ∧ m.1 ∈ (⟨["t", "m"], [("e", [some 1, some 2])]⟩ : DataFrame).columns))).flatMap
          (fun m => [m.1, m.1 ++ "_r"])
      ∧ rest = (⟨["t", "m"], [("e", [some 1, some 2])]⟩ : DataFrame).columns.filter
          (fun c => decide (c ∉ ["t"] ++ pairs)) :=
  ⟨by decide, by decide,
    c6_final_column_order [("m", some false)]
      ⟨["t", "m"], [("e", [some 1, some 2])]⟩ ["t"] (by decide) (by decide)⟩

/-! ## The NaN-free case of the pipeline's dense rank -/

lemma dedup_map_some (xs : List ℚ) : (xs.map some).dedup = xs.dedup.map some := by
  induction xs with
  | nil => rfl
  | cons a xs ih =>
    by_cases h : a ∈ xs
    · rw [List.map_cons, List.dedup_cons_of_mem (List.mem_map_of_mem some h),
        List.dedup_cons_of_mem h, ih]
    · rw [List.map_cons, List.dedup_cons_of_not_mem, List.dedup_cons_of_not_mem h,
        List.map_cons, ih]
      intro hc
      exact h (by simpa using hc)

/-- On a NaN-free column, the pipeline's dense rank agrees with
`rankdataDense`. -/
lemma rankdataDenseO_map_some (xs : List ℚ) :
    rankdataDenseO (xs.map some) = rankdataDense xs := by
  rw [rankdataDenseO, rankdataDense, List.map_map]
  apply List.map_congr_left
  intro v hv
  show (List.filter (fun u => oleB u (some v)) ((xs.map some).dedup)).length
    = rankVal xs v
  rw [dedup_map_some, List.filter_map, List.length_map, rankVal]
  exact congrArg List.length (List.filter_congr (fun u hu => rfl))

/-! ## Lemmas for the frame property of the pipeline -/

lemma getElem?_chain_b {α : Type _} (store : List α) (a b : α) {i : ℕ}
    (h : i < store.length) : ((store ++ [a]) ++ [b])[i]? = store[i]? := by
  have h1 : i < (store ++ [a]).length := by
    simp only [List.length_append, List.length_cons, List.length_nil]
    omega
  rw [List.getElem?_append_left h1, List.getElem?_append_left h]

lemma getElem?_chain_d {α : Type _} (store : List α) (a x b : α) {i : ℕ}
    (h : i < store.length) :
    (((store ++ [a]).set store.length x) ++ [b])[i]? = store[i]? := by
  have h1 : i < ((store ++ [a]).set store.length x).length := by
    simp only [List.length_set, List.length_append, List.length_cons, List.length_nil]
    omega
  have h2 : store.length ≠ i := by omega
  have h3 : i < (store ++ [a]).length := by
    simp only [List.length_append, List.length_cons, List.length_nil]
    omega
  rw [List.getElem?_append_left h1, List.getElem?_set_ne h2,
    List.getElem?_append_left h]

lemma getElem?_chain_a {α : Type _} (store : List α) (a b c d : α) {i : ℕ}
    (h : i < store.length) :
    ((((store ++ [a]) ++ [b]).set (store ++ [a]).length c) ++ [d])[i]? = store[i]? := by
  have h1 : i < (((store ++ [a]) ++ [b]).set (store ++ [a]).length c).length := by
    simp only [List.length_set, List.length_append, List.length_cons, List.length_nil]
    omega
  have h2 : (store ++ [a]).length ≠ i := by
    simp only [List.length_append, List.length_cons, List.length_nil]
    omega
  have h3 : i < ((store ++ [a]) ++ [b]).length := by
    simp only [List.length_append, List.length_cons, List.length_nil]
    omega
  have h4 : i < (store ++ [a]).length := by
    simp only [List.length_append, List.length_cons, List.length_nil]
    omega
  rw [List.getElem?_append_left h1, List.getElem?_set_ne h2,
    List.getElem?_append_left h4, List.getElem?_append_left h]

lemma getElem?_chain_c {α : Type _} (store : List α) (a x b c d : α) {i : ℕ}
    (h : i < store.length) :
    ((((store ++ [a]).set store.length x ++ [b]).set
        ((store ++ [a]).set store.length x).length c) ++ [d])[i]? = store[i]? := by
  have h1 : i < (((store ++ [a]).set store.length x ++ [b]).set
      ((store ++ [a]).set store.length x).length c).length := by
    simp only [List.length_set, List.length_append, List.length_cons, List.length_nil]
    omega
  have h2 : ((store ++ [a]).set store.length x).length ≠ i := by
    simp only [List.length_set, List.length_append, List.length_cons, List.length_nil]
    omega
  have h3 : i < ((store ++ [a]).set store.length x ++ [b]).length := by
    simp only [List.length_set, List.length_append, List.length_cons, List.length_nil]
    omega
  have h4 : i < ((store ++ [a]).set store.length x).length := by
    simp only [List.length_set, List.length_append, List.length_cons, List.length_nil]
    omega
  have h5 : store.length ≠ i := by omega
  have h6 : i < (store ++ [a]).length := by
    simp only [List.length_append, List.length_cons, List.length_nil]
    omega
  rw [List.getElem?_append_left h1, List.getElem?_set_ne h2,
    List.getElem?_append_left h4, List.getElem?_set_ne h5,
    List.getElem?_append_left h]

/-- C8: `evaluate_explainers` never mutates the caller's explanation matrix:
the store slot holding the caller's dataframe is unchanged by the call
(every in-place write — the duplicate-column rename and the rank-column
insertions — targets the private deep copy or a frame allocated inside the
call, and the concatenation and final selection allocate fresh frames). -/
theorem c8_caller_matrix_unchanged {ρ : Type} (tokenizer : String → List ℕ)
    (faith : List FMetric) (plaus : List (PMetric ρ)) (other : List FMetric)
    (text : String) (target : ℤ) (rat : Option ρ) (rank_explainer : Bool)
    (store : List DataFrame) (explId : ℕ) (h : explId < store.length) :
    ((evaluate_explainers tokenizer faith plaus other text target rat
        rank_explainer store explId).1)[explId]?
      = store[explId]? := by
  rw [evaluate_explainers.eq_def]
  dsimp only
  split_ifs with h1 h2
  all_goals
    first
    | exact getElem?_chain_a store _ _ _ _ h
    | exact getElem?_chain_b store _ _ h
    | exact getElem?_chain_c store _ _ _ _ _ h
    | exact getElem?_chain_d store _ _ _ h

/-- C8 witness: a store holding one single-column frame, ranking enabled. -/
theorem c8_witness :
    0 < ([(⟨["a"], [("e", [some 1])]⟩ : DataFrame)] : List DataFrame).length
    ∧ ((evaluate_explainers (fun _ => [0, 1, 2]) [] ([] : List (PMetric ℤ)) []
          "t" 1 none true [⟨["a"], [("e", [some 1])]⟩] 0).1)[0]?
        = ([(⟨["a"], [("e", [some 1])]⟩ : DataFrame)] : List DataFrame)[0]? :=
  ⟨by decide,
    c8_caller_matrix_unchanged (fun _ => [0, 1, 2]) [] [] [] "t" 1 none true
      [⟨["a"], [("e", [some 1])]⟩] 0 (by decide)⟩

end Nlxplain
